import Mathlib

/-
Verification of the change-impact analysis engine of `dependency_analyzer.py`.

The engine builds a method-level call graph from parsed declarations, inverts
it into a reverse index, localizes changed lines from diff hunk headers,
propagates impact backward through the reverse index, and selects test cases
by token overlap.  Each Python function is shallowly embedded below; the
external collaborators (the `javalang` parser, `git`, the filesystem) are out
of scope per the specification, so the embedding takes their outputs
(parsed declarations, diff text) as explicit inputs.
-/
namespace DependencyAnalyzer

/-! ## Insertion-ordered dictionaries

Python `dict`s are modelled as association lists in insertion order with
unique keys.  `dictUpd d k f dflt` covers the mutation patterns the source
uses: `d[k] = v` (`f` constant), `d.setdefault(k, dflt).append(x)` and
`d.setdefault(k, dflt).add(x)` (`f` transforms the existing value); the first
entry holding the key is updated in place, a missing key is appended at the
end, as in Python's insertion-ordered dicts.  `dictGetD d k dflt` is
`d.get(k, dflt)` / `d[k]`. -/
def dictUpd {K V : Type} [DecidableEq K] (d : List (K × V)) (k : K) (f : V → V) (dflt : V) :
    List (K × V) :=
  match d with
  | [] => [(k, f dflt)]
  | p :: rest => if p.1 = k then (p.1, f p.2) :: rest else p :: dictUpd rest k f dflt

def dictGetD {K V : Type} [DecidableEq K] (d : List (K × V)) (k : K) (dflt : V) : V :=
  match d.find? (fun p => decide (p.1 = k)) with
  | some p => p.2
  | none => dflt

/-! ## Parsed declarations and call-graph construction

`parse_methods` (external `javalang` parser) yields one record per method
declaration; `build_dependency_graph` then collects, for each declaration,
the stripped `member` names of all `MethodInvocation` nodes in its body into
a set and assigns `graph[caller] = list(callees)`.  A `Decl` is one parsed
declaration: its simple name and the invocation member names in body order. -/
structure Decl where
  name : String
  invocations : List String
deriving DecidableEq

/-- Python whitespace stripped by `str.strip()` (ASCII range). -/
def isPySpace (c : Char) : Bool :=
  decide (c = ' ') || decide (c = '\t') || decide (c = '\n') || decide (c = '\r') ||
    decide (c.toNat = 11) || decide (c.toNat = 12)

/-- `str.strip()`: drop leading and trailing whitespace. -/
def pyStrip (s : String) : String :=
  ⟨((s.data.dropWhile isPySpace).reverse.dropWhile isPySpace).reverse⟩

/-- The callee list of one declaration: `list({descendant.member.strip() ...})`.
Python's `set` deduplicates; its iteration order is unspecified, so the
deduplicated list in first-occurrence order represents it. -/
def calleeList (d : Decl) : List String :=
  (d.invocations.map pyStrip).dedup

/-- One iteration of the `build_dependency_graph` loop:
`graph[caller] = list(callees)`. -/
def addDecl (g : List (String × List String)) (d : Decl) : List (String × List String) :=
  dictUpd g d.name (fun _ => calleeList d) (calleeList d)

def build_dependency_graph (decls : List Decl) : List (String × List String) :=
  decls.foldl addDecl []

/-- One iteration of the inner `inverse_graph` loop:
`inv.setdefault(callee, []).append(caller)`. -/
def addCallee (caller : String) (inv : List (String × List String)) (callee : String) :
    List (String × List String) :=
  dictUpd inv callee (fun cs => cs ++ [caller]) []

def inverse_graph (graph : List (String × List String)) : List (String × List String) :=
  graph.foldl (fun inv p => p.2.foldl (addCallee p.1) inv) []

/-! ## Impact propagation (`find_dependents`)

The Python loop keeps a `visited` set and a `stack`; it pops `current`,
and pushes every not-yet-visited `parent` from `inv_graph.get(current, [])`,
marking it visited.  The stack is modelled with its top at the list head
(`stack.pop()` pops the most recently appended element); the `for parent`
loop pushes parents left to right, so later parents end up nearer the top,
which `pushParents` reproduces by consing.  The `while` loop is embedded
with explicit fuel; `dfsLoop_stack_empty` proves the fuel bound
`dfsFuel` always suffices, i.e. the loop always drains its stack. -/
def pushParents : List String → List String → List String → List String × List String
  | visited, stack, [] => (visited, stack)
  | visited, stack, p :: ps =>
    if p ∈ visited then pushParents visited stack ps
    else pushParents (p :: visited) (p :: stack) ps

def dfsLoop (inv : List (String × List String)) :
    Nat → List String → List String → List String × List String
  | 0, visited, stack => (visited, stack)
  | _ + 1, visited, [] => (visited, [])
  | fuel + 1, visited, current :: stack =>
    dfsLoop inv fuel (pushParents visited stack (dictGetD inv current [])).1
      (pushParents visited stack (dictGetD inv current [])).2

/-- Fuel that always suffices: one unit per initial stack entry plus one per
occurrence of a caller name in the reverse index's value lists (each extra
iteration consumes a pushed parent, and every push adds a fresh element of
that universe to `visited`). -/
def dfsFuel (methods : List String) (inv : List (String × List String)) : Nat :=
  methods.length + ((inv.map Prod.snd).flatten).length

def find_dependents (methods : List String) (inv : List (String × List String)) :
    List String :=
  (dfsLoop inv (dfsFuel methods inv) [] methods).1

/-- Adjacency in a name-keyed graph dictionary: `b` is listed under `a`. -/
def edgeTo (d : List (String × List String)) (a b : String) : Prop :=
  b ∈ dictGetD d a []

/-! ## Tokenization (`split_camel_case`)

The source tokenizes with `re.findall(r'[A-Z]?[a-z]+|[A-Z]+(?=[A-Z]|$)', name)`
and lower-cases each match.  `matchAt` is one match attempt at the current
position with Python's leftmost-alternative preference and greedy
backtracking; `scanTokensF` is `findall`'s scan (on failure advance one
character), with fuel bounded by the input length, which suffices because
every step consumes at least one character of the input. -/
def isUp (c : Char) : Bool := decide (65 ≤ c.toNat) && decide (c.toNat ≤ 90)

def isLo (c : Char) : Bool := decide (97 ≤ c.toNat) && decide (c.toNat ≤ 122)

def matchAt : List Char → Option (List Char × List Char)
  | [] => none
  | c :: cs =>
    if isUp c then
      if cs.takeWhile isLo ≠ [] then
        some (c :: cs.takeWhile isLo, cs.dropWhile isLo)
      else
        if cs.dropWhile isUp = [] then some (c :: cs.takeWhile isUp, [])
        else if 2 ≤ (c :: cs.takeWhile isUp).length then
          some ((c :: cs.takeWhile isUp).dropLast,
            (c :: cs.takeWhile isUp).drop ((c :: cs.takeWhile isUp).length - 1) ++
              cs.dropWhile isUp)
        else none
    else if isLo c then
      some (c :: cs.takeWhile isLo, cs.dropWhile isLo)
    else none

def scanTokensF : Nat → List Char → List (List Char)
  | 0, _ => []
  | _ + 1, [] => []
  | n + 1, c :: cs =>
    match matchAt (c :: cs) with
    | some (tok, rest) => tok :: scanTokensF n rest
    | none => scanTokensF n cs

def split_camel_case (name : String) : List String :=
  (scanTokensF name.data.length name.data).map (fun t => ⟨t.map Char.toLower⟩)

/-! ## Test-case matching (`find_testcases`) -/
structure TestRecord where
  id : String
  name : String
  folder : String
deriving DecidableEq

/-- ASCII lowering of a string, as `str.lower()` acts on the ASCII names the
engine handles. -/
def lowerStr (s : String) : String := ⟨s.data.map Char.toLower⟩

def startsWithChars : List Char → List Char → Bool
  | [], _ => true
  | _ :: _, [] => false
  | p :: ps, c :: cs => p == c && startsWithChars ps cs

/-- Python's `token in name` substring test. -/
def hasSubChars (sub : List Char) : List Char → Bool
  | [] => startsWithChars sub []
  | c :: cs => startsWithChars sub (c :: cs) || hasSubChars sub cs

/-- `find_testcases`: the union of the tokens of all method names is matched
against each record's lower-cased display name; a record is kept when some
token occurs in it as a literal substring.  The Python token `set` only
deduplicates (its iteration order is irrelevant to the boolean match), so it
is modelled as first-occurrence union. -/
def find_testcases (methods : List String) (testcases : List TestRecord) :
    List TestRecord :=
  let toks := methods.foldl
    (fun acc m => acc ++ (split_camel_case m).filter (fun t => decide (t ∉ acc))) []
  testcases.filter (fun tc => toks.any (fun t => hasSubChars t.data (lowerStr tc.name).data))

/-! ## Method end line (`find_method_end_line`)

The source splits the file on `"\n"`, drops the lines before the declaration's
start line, then scans line by line keeping a running brace count
(`+1` per `{`, `-1` per `}`); it returns `start_line + i` at the first index
`i > 0` where the count is `≤ 0` after processing line `i`, and
`start_line + len(remaining lines)` if the scan falls off the end. -/
/-- Python's `str.split("\n")`. -/
def splitNl : List Char → List (List Char)
  | [] => [[]]
  | c :: cs =>
    if c = '\n' then [] :: splitNl cs
    else
      match splitNl cs with
      | [] => [[c]]
      | l :: ls => (c :: l) :: ls

/-- One character of the brace count update. -/
def braceStep (b : Int) (c : Char) : Int :=
  if c = '{' then b + 1 else if c = '}' then b - 1 else b

/-- Net brace count change of one line. -/
def braceDelta (l : List Char) : Int := l.foldl braceStep 0

def endScan (start_line : Nat) : Nat → Int → List (List Char) → Nat
  | i, _, [] => start_line + i
  | i, bc, l :: rest =>
    if bc + braceDelta l ≤ 0 ∧ 0 < i then start_line + i
    else endScan start_line (i + 1) (bc + braceDelta l) rest

def find_method_end_line (code : String) (start_line : Nat) : Nat :=
  endScan start_line 0 0 ((splitNl code.data).drop (start_line - 1))

/-- Running balance after the first `k` scanned lines. -/
def balanceAt (lines : List (List Char)) (k : Nat) : Int :=
  ((lines.take k).map braceDelta).sum

/-- Least-index characterization of the scan: the first index `i > 0` at
which the prefix balance is `≤ 0`, else the number of remaining lines. -/
def endLineLeast (code : String) (start_line : Nat) : Nat :=
  match (List.range ((splitNl code.data).drop (start_line - 1)).length).find?
      (fun i => decide (0 < i) &&
        decide (balanceAt ((splitNl code.data).drop (start_line - 1)) (i + 1) ≤ 0)) with
  | some i => start_line + i
  | none => start_line + ((splitNl code.data).drop (start_line - 1)).length

/-! ### The end-line computation described by the specification

The specification describes the scan differently: "the method's end is the
first line at which the running balance returns to zero after having gone
positive, or the physical end of file if balance never closes".  The
following definition follows those words (char-level balance, a flag for
"has gone positive", a zero test, the file's last line as fallback), to be
compared with the implementation above. -/
def braceStepPos (p : Int × Bool) (c : Char) : Int × Bool :=
  (braceStep p.1 c, p.2 || decide (0 < braceStep p.1 c))

def specDescScan (s : Nat) : Nat → Int → Bool → List (List Char) → Option Nat
  | _, _, _, [] => none
  | i, bc, pos, l :: rest =>
    if (l.foldl braceStepPos (bc, pos)).2 = true ∧ (l.foldl braceStepPos (bc, pos)).1 = 0 then
      some (s + i)
    else
      specDescScan s (i + 1) (l.foldl braceStepPos (bc, pos)).1
        (l.foldl braceStepPos (bc, pos)).2 rest

def end_line_described (code : String) (start_line : Nat) : Nat :=
  match specDescScan start_line 0 0 false ((splitNl code.data).drop (start_line - 1)) with
  | some e => e
  | none => (splitNl code.data).length

/-! ## Change localization from diff hunk headers
(`find_changed_methods_from_git`, lines parsing the diff text)

The source iterates over the diff's lines: a line starting `+++ b/` resets
the current file and assigns `file_changes[current_file] = set()`; a line
starting `@@` is searched for the first `+<digits>(,<digits>)?`, and lines
`start .. start+count-1` (count defaulting to 1) are added to the current
file's changed-line set.  `git` itself is external; the parsing loop over
the produced text is embedded here. -/
def isDigitC (c : Char) : Bool := decide (48 ≤ c.toNat) && decide (c.toNat ≤ 57)

def natOfDigits (l : List Char) : Nat := l.foldl (fun n c => 10 * n + (c.toNat - 48)) 0

/-- The first match of `\+(\d+)(?:,(\d+))?` in a line (`re.search`): scan to
the first `+` followed by at least one digit; the optional `,<digits>` group
is taken greedily when present. -/
def parseHunkNums : List Char → Option (Nat × Option Nat)
  | [] => none
  | c :: cs =>
    if c = '+' then
      if cs.takeWhile isDigitC ≠ [] then
        some (natOfDigits (cs.takeWhile isDigitC),
          match cs.dropWhile isDigitC with
          | ',' :: cs2 =>
            if cs2.takeWhile isDigitC ≠ [] then some (natOfDigits (cs2.takeWhile isDigitC))
            else none
          | _ => none)
      else parseHunkNums cs
    else parseHunkNums cs

structure LocState where
  file_changes : List (Option (List Char) × List Nat)
  current_file : Option (List Char)
deriving DecidableEq

/-- `file_changes.setdefault(current_file, set()).add(i)`. -/
def addChangedLine (fc : List (Option (List Char) × List Nat)) (k : Option (List Char))
    (x : Nat) : List (Option (List Char) × List Nat) :=
  dictUpd fc k (fun s => if x ∈ s then s else s ++ [x]) []

/-- One iteration of the loop over the diff's lines. -/
def procDiffLine (st : LocState) (line : List Char) : LocState :=
  if startsWithChars ('+' :: '+' :: '+' :: ' ' :: 'b' :: '/' :: []) line then
    ⟨dictUpd st.file_changes (some (line.drop 6)) (fun _ => []) [], some (line.drop 6)⟩
  else if startsWithChars ('@' :: '@' :: []) line then
    match parseHunkNums line with
    | some (c, dOpt) =>
      ⟨(List.range' c (dOpt.getD 1)).foldl
        (fun fc l => addChangedLine fc st.current_file l) st.file_changes, st.current_file⟩
    | none => st
  else st

/-- The whole localization loop over the diff text (the diff's lines are
processed in order; `splitlines` and `split("\n")` agree up to a trailing
empty line, which matches neither prefix and is a no-op). -/
def collect_file_changes (diff : String) : List (Option (List Char) × List Nat) :=
  ((splitNl diff.data).foldl procDiffLine ⟨[], none⟩).file_changes

theorem dictGetD_nil {K V : Type} [DecidableEq K] (k : K) (dflt : V) :
    dictGetD ([] : List (K × V)) k dflt = dflt := rfl

theorem dictGetD_cons_self {K V : Type} [DecidableEq K] (p : K × V) (d : List (K × V))
    (dflt : V) : dictGetD (p :: d) p.1 dflt = p.2 := by
  unfold dictGetD
  rw [List.find?_cons_of_pos _ (by simp)]

theorem dictGetD_cons_ne {K V : Type} [DecidableEq K] (p : K × V) (d : List (K × V))
    (k : K) (dflt : V) (h : p.1 ≠ k) : dictGetD (p :: d) k dflt = dictGetD d k dflt := by
  unfold dictGetD
  rw [List.find?_cons_of_neg _ (by simp [h])]

theorem dictGetD_dictUpd {K V : Type} [DecidableEq K] (d : List (K × V)) (k k' : K)
    (f : V → V) (du dg : V) :
    dictGetD (dictUpd d k f du) k' dg =
      if k' = k then f (dictGetD d k du) else dictGetD d k' dg := by
  induction d with
  | nil =>
    by_cases hk : k' = k
    · subst hk
      rw [if_pos rfl]
      show dictGetD [(k', f du)] k' dg = f (dictGetD [] k' du)
      rw [dictGetD_nil]
      exact dictGetD_cons_self (k', f du) [] dg
    · rw [if_neg hk]
      show dictGetD [(k, f du)] k' dg = dictGetD [] k' dg
      rw [dictGetD_nil, dictGetD_cons_ne _ _ _ _ (fun he => hk he.symm), dictGetD_nil]
  | cons p rest ih =>
    unfold dictUpd
    by_cases hp : p.1 = k
    · rw [if_pos hp]
      by_cases hk : k' = k
      · subst hk
        rw [if_pos rfl, ← hp, dictGetD_cons_self p rest du]
        exact dictGetD_cons_self (p.1, f p.2) rest dg
      · rw [if_neg hk]
        have hne : p.1 ≠ k' := fun he => hk (he.symm.trans hp)
        rw [dictGetD_cons_ne (p.1, f p.2) rest k' dg hne, dictGetD_cons_ne p rest k' dg hne]
    · rw [if_neg hp]
      by_cases hq : k' = p.1
      · have hk : ¬ (k' = k) := fun he => hp (hq ▸ he : p.1 = k)
        rw [if_neg hk]
        rw [hq, dictGetD_cons_self, dictGetD_cons_self]
      · rw [dictGetD_cons_ne p _ k' dg (fun he => hq he.symm), ih]
        by_cases hk : k' = k
        · subst hk
          rw [if_pos rfl, if_pos rfl, dictGetD_cons_ne p rest k' du (fun he => hq he.symm)]
        · rw [if_neg hk, if_neg hk, dictGetD_cons_ne p rest k' dg (fun he => hq he.symm)]

theorem mem_keys_dictUpd {K V : Type} [DecidableEq K] (d : List (K × V)) (k k' : K)
    (f : V → V) (dflt : V) :
    k' ∈ (dictUpd d k f dflt).map Prod.fst ↔ k' ∈ d.map Prod.fst ∨ k' = k := by
  induction d with
  | nil => simp [dictUpd]
  | cons p rest ih =>
    unfold dictUpd
    by_cases hp : p.1 = k
    · rw [if_pos hp]
      subst hp
      simp only [List.map_cons, List.mem_cons]
      constructor
      · rintro (h | h)
        · exact Or.inl (Or.inl h)
        · exact Or.inl (Or.inr h)
      · rintro ((h | h) | h)
        · exact Or.inl h
        · exact Or.inr h
        · exact Or.inl h
    · rw [if_neg hp]
      simp only [List.map_cons, List.mem_cons, ih]
      tauto

theorem nodup_keys_dictUpd {K V : Type} [DecidableEq K] (d : List (K × V)) (k : K)
    (f : V → V) (dflt : V) (h : (d.map Prod.fst).Nodup) :
    ((dictUpd d k f dflt).map Prod.fst).Nodup := by
  induction d with
  | nil => simp [dictUpd]
  | cons p rest ih =>
    unfold dictUpd
    simp only [List.map_cons, List.nodup_cons] at h
    by_cases hp : p.1 = k
    · rw [if_pos hp]
      simp only [List.map_cons, List.nodup_cons]
      exact h
    · rw [if_neg hp]
      simp only [List.map_cons, List.nodup_cons]
      refine ⟨?_, ih h.2⟩
      rw [mem_keys_dictUpd]
      rintro (hmem | hmem)
      · exact h.1 hmem
      · exact hp hmem

/-- With distinct keys, `dictGetD` at the key of an entry present in the
dictionary returns exactly that entry's value. -/
theorem dictGetD_of_mem_nodup {K V : Type} [DecidableEq K] {d : List (K × V)} {p : K × V}
    (hnd : (d.map Prod.fst).Nodup) (hmem : p ∈ d) (dflt : V) :
    dictGetD d p.1 dflt = p.2 := by
  induction d with
  | nil => cases hmem
  | cons q rest ih =>
    rcases List.mem_cons.mp hmem with rfl | htail
    · exact dictGetD_cons_self p rest dflt
    · simp only [List.map_cons, List.nodup_cons] at hnd
      have hq : q.1 ≠ p.1 := by
        intro he
        exact hnd.1 (he ▸ List.mem_map.mpr ⟨p, htail, rfl⟩)
      rw [dictGetD_cons_ne q rest p.1 dflt hq]
      exact ih hnd.2 htail

/-! ### Key lemmas about the constructed graph -/
theorem nodup_keys_foldl_addDecl (decls : List Decl) (g : List (String × List String))
    (h : (g.map Prod.fst).Nodup) : ((decls.foldl addDecl g).map Prod.fst).Nodup := by
  induction decls generalizing g with
  | nil => exact h
  | cons d rest ih =>
    exact ih (addDecl g d) (nodup_keys_dictUpd g d.name _ _ h)

theorem nodup_keys_build (decls : List Decl) :
    ((build_dependency_graph decls).map Prod.fst).Nodup :=
  nodup_keys_foldl_addDecl decls [] (by simp)

theorem mem_keys_foldl_addDecl_mono (decls : List Decl) (g : List (String × List String))
    (k : String) (h : k ∈ g.map Prod.fst) : k ∈ (decls.foldl addDecl g).map Prod.fst := by
  induction decls generalizing g with
  | nil => exact h
  | cons d rest ih =>
    exact ih (addDecl g d) ((mem_keys_dictUpd g d.name k _ _).mpr (Or.inl h))

theorem name_mem_keys_foldl_addDecl (decls : List Decl) (g : List (String × List String))
    (d : Decl) (h : d ∈ decls) : d.name ∈ (decls.foldl addDecl g).map Prod.fst := by
  induction decls generalizing g with
  | nil => cases h
  | cons d' rest ih =>
    rcases List.mem_cons.mp h with rfl | htail
    · exact mem_keys_foldl_addDecl_mono rest (addDecl g d)
        d.name ((mem_keys_dictUpd g d.name d.name _ _).mpr (Or.inr rfl))
    · exact ih (addDecl g d') htail

theorem dictGetD_foldl_addDecl_of_notname (decls : List Decl) (g : List (String × List String))
    (k : String) (h : ∀ d ∈ decls, d.name ≠ k) :
    dictGetD (decls.foldl addDecl g) k [] = dictGetD g k [] := by
  induction decls generalizing g with
  | nil => rfl
  | cons d rest ih =>
    rw [List.foldl_cons, ih (addDecl g d) (fun d' hd' => h d' (List.mem_cons_of_mem d hd'))]
    unfold addDecl
    rw [dictGetD_dictUpd]
    exact if_neg (fun he => h d (List.mem_cons_self d rest) he.symm)

/-! ### Membership characterization of the reverse index -/
theorem mem_dictGetD_foldl_addCallee (callees : List String) (inv : List (String × List String))
    (caller k y : String) :
    y ∈ dictGetD (callees.foldl (addCallee caller) inv) k [] ↔
      y ∈ dictGetD inv k [] ∨ (k ∈ callees ∧ y = caller) := by
  induction callees generalizing inv with
  | nil => simp
  | cons c rest ih =>
    rw [List.foldl_cons, ih]
    unfold addCallee
    rw [dictGetD_dictUpd]
    by_cases hk : k = c
    · subst hk
      rw [if_pos rfl]
      simp only [List.mem_append, List.mem_singleton, List.mem_cons]
      tauto
    · rw [if_neg hk]
      simp only [List.mem_cons]
      constructor
      · rintro (h | ⟨h1, h2⟩)
        · exact Or.inl h
        · exact Or.inr ⟨Or.inr h1, h2⟩
      · rintro (h | ⟨h1 | h1, h2⟩)
        · exact Or.inl h
        · exact absurd h1 hk
        · exact Or.inr ⟨h1, h2⟩

theorem mem_dictGetD_foldl_inverse (g : List (String × List String))
    (inv : List (String × List String)) (k y : String) :
    y ∈ dictGetD (g.foldl (fun inv p => p.2.foldl (addCallee p.1) inv) inv) k [] ↔
      y ∈ dictGetD inv k [] ∨ ∃ p ∈ g, p.1 = y ∧ k ∈ p.2 := by
  induction g generalizing inv with
  | nil => simp
  | cons q rest ih =>
    rw [List.foldl_cons, ih, mem_dictGetD_foldl_addCallee]
    constructor
    · rintro ((h | ⟨h1, h2⟩) | ⟨p, hp, h1, h2⟩)
      · exact Or.inl h
      · exact Or.inr ⟨q, List.mem_cons_self q rest, h2.symm, h1⟩
      · exact Or.inr ⟨p, List.mem_cons_of_mem q hp, h1, h2⟩
    · rintro (h | ⟨p, hp, h1, h2⟩)
      · exact Or.inl (Or.inl h)
      · rcases List.mem_cons.mp hp with rfl | htail
        · exact Or.inl (Or.inr ⟨h2, h1.symm⟩)
        · exact Or.inr ⟨p, htail, h1, h2⟩

theorem mem_dictGetD_inverse_graph (g : List (String × List String)) (k y : String) :
    y ∈ dictGetD (inverse_graph g) k [] ↔ ∃ p ∈ g, p.1 = y ∧ k ∈ p.2 := by
  unfold inverse_graph
  rw [mem_dictGetD_foldl_inverse]
  simp [dictGetD_nil]

theorem mem_dictGetD_of_entry (g : List (String × List String)) (a b : String)
    (h : b ∈ dictGetD g a []) : ∃ p ∈ g, p.1 = a ∧ b ∈ p.2 := by
  induction g with
  | nil => simp [dictGetD_nil] at h
  | cons q rest ih =>
    by_cases hq : q.1 = a
    · refine ⟨q, List.mem_cons_self q rest, hq, ?_⟩
      rw [← hq, dictGetD_cons_self] at h
      exact h
    · rw [dictGetD_cons_ne q rest a [] hq] at h
      obtain ⟨p, hp, h1, h2⟩ := ih h
      exact ⟨p, List.mem_cons_of_mem q hp, h1, h2⟩

/-- Reverse-index duality over any graph with distinct keys (Python dicts
always have distinct keys). -/
theorem duality_of_nodup (g : List (String × List String))
    (hnd : (g.map Prod.fst).Nodup) (a b : String) :
    b ∈ dictGetD g a [] ↔ a ∈ dictGetD (inverse_graph g) b [] := by
  rw [mem_dictGetD_inverse_graph]
  constructor
  · exact mem_dictGetD_of_entry g a b
  · rintro ⟨p, hp, h1, h2⟩
    have := dictGetD_of_mem_nodup hnd hp ([] : List String)
    rw [h1] at this
    rw [this]
    exact h2

/-! ### Properties of `pushParents` -/
theorem pushParents_mem_visited (ps : List String) :
    ∀ (visited stack : List String) (x : String),
    x ∈ (pushParents visited stack ps).1 ↔ x ∈ visited ∨ x ∈ ps := by
  induction ps with
  | nil => intro visited stack x; simp [pushParents]
  | cons p rest ih =>
    intro visited stack x
    unfold pushParents
    by_cases hp : p ∈ visited
    · rw [if_pos hp, ih]
      constructor
      · rintro (h | h)
        · exact Or.inl h
        · exact Or.inr (List.mem_cons_of_mem p h)
      · rintro (h | h)
        · exact Or.inl h
        · rcases List.mem_cons.mp h with rfl | h
          · exact Or.inl hp
          · exact Or.inr h
    · rw [if_neg hp, ih]
      simp only [List.mem_cons]
      tauto

theorem pushParents_mem_stack (ps : List String) :
    ∀ (visited stack : List String) (x : String),
    x ∈ (pushParents visited stack ps).2 ↔ x ∈ stack ∨ (x ∈ ps ∧ x ∉ visited) := by
  induction ps with
  | nil => intro visited stack x; simp [pushParents]
  | cons p rest ih =>
    intro visited stack x
    unfold pushParents
    by_cases hp : p ∈ visited
    · rw [if_pos hp, ih]
      constructor
      · rintro (h | ⟨h1, h2⟩)
        · exact Or.inl h
        · exact Or.inr ⟨List.mem_cons_of_mem p h1, h2⟩
      · rintro (h | ⟨h1, h2⟩)
        · exact Or.inl h
        · rcases List.mem_cons.mp h1 with rfl | h1
          · exact absurd hp h2
          · exact Or.inr ⟨h1, h2⟩
    · rw [if_neg hp, ih]
      simp only [List.mem_cons, not_or]
      by_cases hx : x = p
      · subst hx
        tauto
      · tauto

theorem pushParents_nodup (ps : List String) :
    ∀ (visited stack : List String), visited.Nodup → (pushParents visited stack ps).1.Nodup := by
  induction ps with
  | nil => intro visited stack h; exact h
  | cons p rest ih =>
    intro visited stack h
    unfold pushParents
    by_cases hp : p ∈ visited
    · rw [if_pos hp]; exact ih visited stack h
    · rw [if_neg hp]; exact ih (p :: visited) (p :: stack) (List.nodup_cons.mpr ⟨hp, h⟩)

theorem pushParents_length (ps : List String) :
    ∀ (visited stack : List String),
    (pushParents visited stack ps).1.length + stack.length =
      visited.length + (pushParents visited stack ps).2.length := by
  induction ps with
  | nil => intro visited stack; simp [pushParents]
  | cons p rest ih =>
    intro visited stack
    unfold pushParents
    by_cases hp : p ∈ visited
    · rw [if_pos hp]; exact ih visited stack
    · rw [if_neg hp]
      have := ih (p :: visited) (p :: stack)
      simp only [List.length_cons] at this
      omega

/-! ### Termination: the loop always drains its stack within `dfsFuel` -/
theorem mem_flatten_of_dictGetD (inv : List (String × List String)) (k x : String)
    (h : x ∈ dictGetD inv k []) : x ∈ (inv.map Prod.snd).flatten := by
  obtain ⟨p, hp, _, hx⟩ := mem_dictGetD_of_entry inv k x h
  exact List.mem_flatten.mpr ⟨p.2, List.mem_map.mpr ⟨p, hp, rfl⟩, hx⟩

theorem dfsLoop_stack_empty (inv : List (String × List String)) :
    ∀ (fuel : Nat) (visited stack : List String),
    visited.Nodup → (∀ x ∈ visited, x ∈ (inv.map Prod.snd).flatten) →
    stack.length + ((inv.map Prod.snd).flatten).length ≤ fuel + visited.length →
    (dfsLoop inv fuel visited stack).2 = [] := by
  intro fuel
  induction fuel with
  | zero =>
    intro visited stack hnd hsub hlen
    have hvle : visited.length ≤ ((inv.map Prod.snd).flatten).length :=
      (List.Nodup.subperm hnd (fun x hx => hsub x hx)).length_le
    have hs : stack.length = 0 := by omega
    show stack = []
    exact List.length_eq_zero.mp hs
  | succ n ih =>
    intro visited stack hnd hsub hlen
    cases stack with
    | nil => rfl
    | cons current rest =>
      show (dfsLoop inv n (pushParents visited rest (dictGetD inv current [])).1
        (pushParents visited rest (dictGetD inv current [])).2).2 = []
      apply ih
      · exact pushParents_nodup _ visited rest hnd
      · intro x hx
        rcases (pushParents_mem_visited _ visited rest x).mp hx with h | h
        · exact hsub x h
        · exact mem_flatten_of_dictGetD inv current x h
      · have hpl := pushParents_length (dictGetD inv current []) visited rest
        have hlen' : rest.length + 1 + ((inv.map Prod.snd).flatten).length ≤
            n + 1 + visited.length := by
          simpa using hlen
        omega

/-! ### Soundness: everything visited has a reverse path from a root -/
theorem dfsLoop_sound (inv : List (String × List String)) (roots : List String) :
    ∀ (fuel : Nat) (visited stack : List String),
    (∀ x ∈ visited, ∃ c ∈ roots, Relation.TransGen (edgeTo inv) c x) →
    (∀ x ∈ stack, x ∈ roots ∨ ∃ c ∈ roots, Relation.TransGen (edgeTo inv) c x) →
    ∀ m ∈ (dfsLoop inv fuel visited stack).1,
      ∃ c ∈ roots, Relation.TransGen (edgeTo inv) c m := by
  intro fuel
  induction fuel with
  | zero => intro visited stack hv _ m hm; exact hv m hm
  | succ n ih =>
    intro visited stack hv hs
    cases stack with
    | nil => exact fun m hm => hv m hm
    | cons current rest =>
      show ∀ m ∈ (dfsLoop inv n (pushParents visited rest (dictGetD inv current [])).1
        (pushParents visited rest (dictGetD inv current [])).2).1, _
      have hcur := hs current (List.mem_cons_self current rest)
      have hpar : ∀ p ∈ dictGetD inv current [],
          ∃ c ∈ roots, Relation.TransGen (edgeTo inv) c p := by
        intro p hp
        rcases hcur with h | ⟨c, hc, htg⟩
        · exact ⟨current, h, Relation.TransGen.single hp⟩
        · exact ⟨c, hc, Relation.TransGen.tail htg hp⟩
      apply ih
      · intro x hx
        rcases (pushParents_mem_visited _ visited rest x).mp hx with h | h
        · exact hv x h
        · exact hpar x h
      · intro x hx
        rcases (pushParents_mem_stack _ visited rest x).mp hx with h | ⟨h1, _⟩
        · exact hs x (List.mem_cons_of_mem current h)
        · exact Or.inr (hpar x h1)

/-! ### Completeness: the drained state is closed under parent edges -/
theorem dfsLoop_closed (inv : List (String × List String)) (roots : List String) :
    ∀ (fuel : Nat) (visited stack : List String),
    (∀ x, (x ∈ roots ∨ x ∈ visited) →
      x ∈ stack ∨ ∀ p ∈ dictGetD inv x [], p ∈ visited) →
    ∀ x, (x ∈ roots ∨ x ∈ (dfsLoop inv fuel visited stack).1) →
      x ∈ (dfsLoop inv fuel visited stack).2 ∨
        ∀ p ∈ dictGetD inv x [], p ∈ (dfsLoop inv fuel visited stack).1 := by
  intro fuel
  induction fuel with
  | zero => intro visited stack hinv x hx; exact hinv x hx
  | succ n ih =>
    intro visited stack hinv
    cases stack with
    | nil => exact fun x hx => hinv x hx
    | cons current rest =>
      show ∀ x, (x ∈ roots ∨ x ∈ (dfsLoop inv n
          (pushParents visited rest (dictGetD inv current [])).1
          (pushParents visited rest (dictGetD inv current [])).2).1) → _
      apply ih
      intro x hx
      by_cases hxo : x ∈ roots ∨ x ∈ visited
      · rcases hinv x hxo with hst | hcl
        · rcases List.mem_cons.mp hst with rfl | hrest
          · right
            intro p hp
            exact (pushParents_mem_visited _ visited rest p).mpr (Or.inr hp)
          · left
            exact (pushParents_mem_stack _ visited rest x).mpr (Or.inl hrest)
        · right
          intro p hp
          exact (pushParents_mem_visited _ visited rest p).mpr (Or.inl (hcl p hp))
      · push_neg at hxo
        rcases hx with h | h
        · exact absurd h hxo.1
        · rcases (pushParents_mem_visited _ visited rest x).mp h with h1 | h1
          · exact absurd h1 hxo.2
          · left
            exact (pushParents_mem_stack _ visited rest x).mpr (Or.inr ⟨h1, hxo.2⟩)

/-! ### The reachability characterization of `find_dependents` -/
theorem find_dependents_spec (inv : List (String × List String)) (roots : List String)
    (m : String) :
    m ∈ find_dependents roots inv ↔
      ∃ c ∈ roots, Relation.TransGen (edgeTo inv) c m := by
  constructor
  · intro hm
    refine dfsLoop_sound inv roots (dfsFuel roots inv) [] roots ?_ ?_ m hm
    · intro x hx; cases hx
    · intro x hx; exact Or.inl hx
  · rintro ⟨c, hc, htg⟩
    have hempty : (dfsLoop inv (dfsFuel roots inv) [] roots).2 = [] := by
      apply dfsLoop_stack_empty
      · exact List.nodup_nil
      · intro x hx; cases hx
      · simp [dfsFuel]
    have hcl : ∀ x, (x ∈ roots ∨ x ∈ (dfsLoop inv (dfsFuel roots inv) [] roots).1) →
        ∀ p ∈ dictGetD inv x [], p ∈ (dfsLoop inv (dfsFuel roots inv) [] roots).1 := by
      intro x hx
      have := dfsLoop_closed inv roots (dfsFuel roots inv) [] roots
        (fun x hx => by
          rcases hx with h | h
          · exact Or.inl h
          · cases h) x hx
      rcases this with h | h
      · rw [hempty] at h; cases h
      · exact h
    induction htg with
    | single hstep => exact hcl c (Or.inl hc) _ hstep
    | tail _ hstep ih2 => exact hcl _ (Or.inr ih2) _ hstep

/-! ### Tokens consist of letters only -/
theorem mem_of_mem_dropLast {α : Type} {l : List α} {x : α} (h : x ∈ l.dropLast) : x ∈ l :=
  List.dropLast_subset l h

theorem matchAt_some (l tok rest : List Char) (h : matchAt l = some (tok, rest)) :
    tok ≠ [] ∧ ∀ c ∈ tok, (isUp c || isLo c) = true := by
  match l with
  | [] => simp [matchAt] at h
  | c :: cs =>
    unfold matchAt at h
    dsimp only at h
    by_cases hu : isUp c = true
    · rw [if_pos hu] at h
      by_cases hlo : cs.takeWhile isLo ≠ []
      · rw [if_pos hlo] at h
        injection h with h
        injection h with h1 h2
        subst h1
        refine ⟨by simp, ?_⟩
        intro x hx
        rcases List.mem_cons.mp hx with rfl | hx
        · simp [hu]
        · have := List.mem_takeWhile_imp hx
          simp [this]
      · rw [if_neg hlo] at h
        have hup : ∀ x ∈ c :: cs.takeWhile isUp, (isUp x || isLo x) = true := by
          intro x hx
          rcases List.mem_cons.mp hx with rfl | hx
          · simp [hu]
          · have := List.mem_takeWhile_imp hx
            simp [this]
        by_cases hrest : cs.dropWhile isUp = []
        · rw [if_pos hrest] at h
          injection h with h
          injection h with h1 h2
          subst h1
          exact ⟨by simp, hup⟩
        · rw [if_neg hrest] at h
          by_cases hlen : 2 ≤ (c :: cs.takeWhile isUp).length
          · rw [if_pos hlen] at h
            injection h with h
            injection h with h1 h2
            subst h1
            constructor
            · have hpos : 0 < (c :: cs.takeWhile isUp).dropLast.length := by
                rw [List.length_dropLast]
                omega
              exact List.ne_nil_of_length_pos hpos
            · intro x hx
              exact hup x (mem_of_mem_dropLast hx)
          · rw [if_neg hlen] at h
            cases h
    · rw [if_neg hu] at h
      by_cases hl : isLo c = true
      · rw [if_pos hl] at h
        injection h with h
        injection h with h1 h2
        subst h1
        refine ⟨by simp, ?_⟩
        intro x hx
        rcases List.mem_cons.mp hx with rfl | hx
        · simp [hl]
        · have := List.mem_takeWhile_imp hx
          simp [this]
      · rw [if_neg hl] at h
        cases h

theorem matchAt_none_of_notAlpha (c : Char) (cs : List Char)
    (hu : isUp c = false) (hl : isLo c = false) : matchAt (c :: cs) = none := by
  unfold matchAt
  dsimp only
  rw [if_neg (by simp [hu]), if_neg (by simp [hl])]

theorem scanTokensF_letters (n : Nat) :
    ∀ (l : List Char) (t : List Char), t ∈ scanTokensF n l →
      t ≠ [] ∧ ∀ c ∈ t, (isUp c || isLo c) = true := by
  induction n with
  | zero => intro l t ht; simp [scanTokensF] at ht
  | succ m ih =>
    intro l t ht
    match l with
    | [] => simp [scanTokensF] at ht
    | c :: cs =>
      unfold scanTokensF at ht
      cases hm : matchAt (c :: cs) with
      | none =>
        rw [hm] at ht
        exact ih cs t ht
      | some pr =>
        rw [hm] at ht
        rcases List.mem_cons.mp ht with rfl | ht
        · exact matchAt_some (c :: cs) pr.1 pr.2 (by rw [hm])
        · exact ih pr.2 t ht

theorem scanTokensF_nil_of_notAlpha (n : Nat) :
    ∀ (l : List Char), (∀ c ∈ l, isUp c = false ∧ isLo c = false) →
      scanTokensF n l = [] := by
  induction n with
  | zero => intro l _; rfl
  | succ m ih =>
    intro l hl
    match l with
    | [] => rfl
    | c :: cs =>
      unfold scanTokensF
      have hc := hl c (List.mem_cons_self c cs)
      rw [matchAt_none_of_notAlpha c cs hc.1 hc.2]
      exact ih cs (fun x hx => hl x (List.mem_cons_of_mem c hx))

theorem isLo_toLower_of_alpha (c : Char) (h : (isUp c || isLo c) = true) :
    isLo (Char.toLower c) = true := by
  rcases Bool.or_eq_true_iff.mp h with h | h
  · simp only [isUp, Bool.and_eq_true, decide_eq_true_eq] at h
    obtain ⟨h1, h2⟩ := h
    unfold Char.toLower
    set n := c.toNat with hn
    interval_cases n <;> (rw [if_pos (by omega)]; decide)
  · simp only [isLo, Bool.and_eq_true, decide_eq_true_eq] at h
    unfold Char.toLower
    rw [if_neg (by omega)]
    simp only [isLo, Bool.and_eq_true, decide_eq_true_eq]
    omega

theorem balanceAt_zero (L : List (List Char)) : balanceAt L 0 = 0 := rfl

theorem balanceAt_cons_succ (l : List Char) (L : List (List Char)) (k : Nat) :
    balanceAt (l :: L) (k + 1) = braceDelta l + balanceAt L k := by
  simp [balanceAt, List.take_succ_cons]

theorem endScan_eq_least (L : List (List Char)) :
    ∀ (s i : Nat) (bc : Int),
    endScan s i bc L =
      match (List.range L.length).find?
          (fun j => decide (0 < i + j) && decide (bc + balanceAt L (j + 1) ≤ 0)) with
      | some j => s + i + j
      | none => s + i + L.length := by
  induction L with
  | nil => intro s i bc; simp [endScan]
  | cons l rest ih =>
    intro s i bc
    unfold endScan
    rw [List.length_cons, List.range_succ_eq_map]
    have hb1 : balanceAt (l :: rest) (0 + 1) = braceDelta l := by
      rw [balanceAt_cons_succ, balanceAt_zero, add_zero]
    by_cases hc : bc + braceDelta l ≤ 0 ∧ 0 < i
    · rw [if_pos hc]
      have hp0 : (fun j => decide (0 < i + j) &&
          decide (bc + balanceAt (l :: rest) (j + 1) ≤ 0)) 0 = true := by
        simp only [Nat.add_zero, hb1, Bool.and_eq_true, decide_eq_true_eq]
        exact ⟨hc.2, hc.1⟩
      rw [@List.find?_cons_of_pos Nat
        (fun j => decide (0 < i + j) && decide (bc + balanceAt (l :: rest) (j + 1) ≤ 0)) 0
        (List.map Nat.succ (List.range rest.length)) hp0]
      simp
    · rw [if_neg hc]
      have hp0 : ¬ ((fun j => decide (0 < i + j) &&
          decide (bc + balanceAt (l :: rest) (j + 1) ≤ 0)) 0 = true) := by
        simp only [Nat.add_zero, hb1, Bool.and_eq_true, decide_eq_true_eq]
        intro hcontra
        exact hc ⟨hcontra.2, hcontra.1⟩
      rw [@List.find?_cons_of_neg Nat
        (fun j => decide (0 < i + j) && decide (bc + balanceAt (l :: rest) (j + 1) ≤ 0)) 0
        (List.map Nat.succ (List.range rest.length)) hp0, List.find?_map]
      have hq : ((fun j => decide (0 < i + j) &&
          decide (bc + balanceAt (l :: rest) (j + 1) ≤ 0)) ∘ Nat.succ) =
          (fun j => decide (0 < i + 1 + j) &&
            decide (bc + braceDelta l + balanceAt rest (j + 1) ≤ 0)) := by
        funext j
        simp only [Function.comp]
        have h1 : i + Nat.succ j = i + 1 + j := by omega
        have h2 : balanceAt (l :: rest) (Nat.succ j + 1) =
            braceDelta l + balanceAt rest (j + 1) := balanceAt_cons_succ l rest (j + 1)
        rw [h1, h2, ← add_assoc]
      rw [hq, ih s (i + 1) (bc + braceDelta l)]
      cases hf : (List.range rest.length).find?
          (fun j => decide (0 < i + 1 + j) &&
            decide (bc + braceDelta l + balanceAt rest (j + 1) ≤ 0)) with
      | some j =>
        show s + (i + 1) + j = s + i + Nat.succ j
        omega
      | none =>
        show s + (i + 1) + rest.length = s + i + (rest.length + 1)
        omega

theorem find_method_end_line_eq_least (code : String) (start_line : Nat) :
    find_method_end_line code start_line = endLineLeast code start_line := by
  unfold find_method_end_line endLineLeast
  rw [endScan_eq_least]
  have hq : (fun j => decide (0 < 0 + j) &&
      decide ((0 : Int) + balanceAt ((splitNl code.data).drop (start_line - 1)) (j + 1) ≤ 0)) =
      (fun i => decide (0 < i) &&
        decide (balanceAt ((splitNl code.data).drop (start_line - 1)) (i + 1) ≤ 0)) := by
    funext j
    rw [Nat.zero_add, zero_add]
  rw [hq]
  cases hf : (List.range ((splitNl code.data).drop (start_line - 1)).length).find?
      (fun i => decide (0 < i) &&
        decide (balanceAt ((splitNl code.data).drop (start_line - 1)) (i + 1) ≤ 0)) with
  | some j => simp [hf]
  | none => simp [hf]

theorem mem_addChangedLine (fc : List (Option (List Char) × List Nat))
    (key k : Option (List Char)) (l x : Nat) :
    x ∈ dictGetD (addChangedLine fc key l) k [] ↔
      x ∈ dictGetD fc k [] ∨ (k = key ∧ x = l) := by
  unfold addChangedLine
  rw [dictGetD_dictUpd]
  by_cases hk : k = key
  · subst hk
    rw [if_pos rfl]
    by_cases hl : l ∈ dictGetD fc k []
    · rw [if_pos hl]
      constructor
      · exact fun h => Or.inl h
      · rintro (h | ⟨_, rfl⟩)
        · exact h
        · exact hl
    · rw [if_neg hl]
      simp only [List.mem_append, List.mem_singleton]
      tauto
  · rw [if_neg hk]
    simp [hk]

theorem mem_foldl_addChangedLine (L : List Nat) :
    ∀ (fc : List (Option (List Char) × List Nat)) (key k : Option (List Char)) (x : Nat),
    x ∈ dictGetD (L.foldl (fun fc l => addChangedLine fc key l) fc) k [] ↔
      x ∈ dictGetD fc k [] ∨ (k = key ∧ x ∈ L) := by
  induction L with
  | nil => intro fc key k x; simp
  | cons l rest ih =>
    intro fc key k x
    rw [List.foldl_cons, ih, mem_addChangedLine]
    simp only [List.mem_cons]
    tauto

theorem dictGetD_foldl_addChangedLine_ne (L : List Nat) :
    ∀ (fc : List (Option (List Char) × List Nat)) (key k : Option (List Char)),
    k ≠ key →
    dictGetD (L.foldl (fun fc l => addChangedLine fc key l) fc) k [] =
      dictGetD fc k [] := by
  induction L with
  | nil => intro fc key k _; rfl
  | cons l rest ih =>
    intro fc key k hk
    rw [List.foldl_cons, ih _ _ _ hk]
    unfold addChangedLine
    rw [dictGetD_dictUpd, if_neg hk]

/-! ## Bridging reverse-index reachability and call-graph paths -/
theorem transGen_inverse_iff (g : List (String × List String))
    (hnd : (g.map Prod.fst).Nodup) (c m : String) :
    Relation.TransGen (edgeTo (inverse_graph g)) c m ↔
      Relation.TransGen (edgeTo g) m c := by
  constructor
  · intro h
    refine Relation.transGen_swap.mp (Relation.TransGen.mono ?_ h)
    intro x y hxy
    exact (duality_of_nodup g hnd y x).mpr hxy
  · intro h
    refine Relation.TransGen.mono ?_ (Relation.transGen_swap.mpr h)
    intro x y hxy
    exact (duality_of_nodup g hnd y x).mp hxy

/-! ## Claims -/
/-- C1: for every call graph (with the distinct keys every Python dict has)
and every changed-method set, a method `m` is in the set returned by
`find_dependents` run on the inverted graph if and only if the call graph
has a directed path of length at least 1 from `m` to some changed method. -/
theorem impacted_iff_call_path (g : List (String × List String))
    (hnd : (g.map Prod.fst).Nodup) (methods : List String) (m : String) :
    m ∈ find_dependents methods (inverse_graph g) ↔
      ∃ c ∈ methods, Relation.TransGen (edgeTo g) m c := by
  rw [find_dependents_spec]
  constructor
  · rintro ⟨c, hc, htg⟩
    exact ⟨c, hc, (transGen_inverse_iff g hnd c m).mp htg⟩
  · rintro ⟨c, hc, htg⟩
    exact ⟨c, hc, (transGen_inverse_iff g hnd c m).mpr htg⟩

/-- Witness for C1 at a concrete input: in the one-edge graph `a → b` with
changed set `{b}`, the method `a` is impacted. -/
theorem impacted_iff_call_path_witness :
    "a" ∈ find_dependents ["b"] (inverse_graph [("a", ["b"])]) :=
  (impacted_iff_call_path [("a", ["b"])] (by decide) ["b"] "a").mpr
    ⟨"b", by decide, Relation.TransGen.single (show "b" ∈ dictGetD [("a", ["b"])] "a" [] by decide)⟩

/-- C2 counterexample: in the cyclic graph `a→b`, `b→a` with changed set
`{a}`, the changed method `a` itself is in the returned impacted set, so the
impacted set is not disjoint from the changed set and is not `{b}`. -/
theorem cycle_counterexample :
    "a" ∈ (["a"] : List String) ∧
    "a" ∈ find_dependents ["a"] (inverse_graph [("a", ["b"]), ("b", ["a"])]) := by
  decide

/-- C2 amended: the impacted set need not be disjoint from the changed set:
a changed method with a call path of length at least 1 back to a changed
method is itself included.  For the graph with edges `a→b` and `b→a` and
changed set `{a}`, propagation terminates and yields the impacted set
`{a, b}`. -/
theorem cycle_propagation_result :
    find_dependents ["a"] (inverse_graph [("a", ["b"]), ("b", ["a"])]) = ["a", "b"] := by
  decide

/-- C3 counterexample: on a file with no braces at all (`"a\nb\nc"`, start
line 1) the balance never goes positive, so the behavior the specification
describes falls through to the physical end of file (line 3), but the code
returns line 2, the first line after the start line at which the
(never-positive) balance is not positive. -/
theorem brace_scan_counterexample :
    find_method_end_line "a\nb\nc" 1 = 2 ∧ end_line_described "a\nb\nc" 1 = 3 ∧
    find_method_end_line "a\nb\nc" 1 ≠ end_line_described "a\nb\nc" 1 := by
  decide

/-- C3 amended: `find_method_end_line` scans forward from the start line
keeping a per-line brace balance and returns the first line strictly after
the start line at which the running balance is not positive — whether or not
it ever went positive — and `start_line` plus the number of remaining lines
when no such line exists. -/
theorem find_method_end_line_amended (code : String) (start_line : Nat) :
    find_method_end_line code start_line = endLineLeast code start_line :=
  find_method_end_line_eq_least code start_line

/-- C4: for all method names `a` and `b`, `b` is in the callee list that
`build_dependency_graph` produced for key `a` if and only if `a` is in the
caller list that `inverse_graph` produced for key `b`. -/
theorem callgraph_reverse_duality (decls : List Decl) (a b : String) :
    b ∈ dictGetD (build_dependency_graph decls) a [] ↔
      a ∈ dictGetD (inverse_graph (build_dependency_graph decls)) b [] :=
  duality_of_nodup (build_dependency_graph decls) (nodup_keys_build decls) a b

/-- C5: every method name appearing in a parsed declaration is a key of the
graph returned by `build_dependency_graph` (possibly with an empty callee
list). -/
theorem graph_totality (decls : List Decl) (d : Decl) (h : d ∈ decls) :
    d.name ∈ (build_dependency_graph decls).map Prod.fst :=
  name_mem_keys_foldl_addDecl decls [] d h

/-- Witness for C5 at a concrete input: a declaration named `remove` with no
invocations becomes a key of the graph. -/
theorem graph_totality_witness :
    (⟨"remove", []⟩ : Decl) ∈ ([⟨"remove", []⟩] : List Decl) ∧
    (⟨"remove", []⟩ : Decl).name ∈
      (build_dependency_graph [⟨"remove", []⟩]).map Prod.fst :=
  ⟨by decide, graph_totality [⟨"remove", []⟩] ⟨"remove", []⟩ (by decide)⟩

/-- C6: `split_camel_case` tokenizes `deleteUserAccount` into exactly
`delete`, `user`, `account`, and `find_testcases` selects a record named
`Test_DeleteUser_Flow` from those tokens (a token is a literal substring of
the lower-cased display name). -/
theorem tokenization_matching_example :
    split_camel_case "deleteUserAccount" = ["delete", "user", "account"] ∧
    find_testcases ["deleteUserAccount"] [⟨"T1", "Test_DeleteUser_Flow", "core"⟩] =
      [⟨"T1", "Test_DeleteUser_Flow", "core"⟩] := by
  decide

/-- C7: `find_dependents` terminates on every finite graph, cyclic or not:
its while loop always drains the stack within the `dfsFuel` bound (every
iteration pops one entry, and the visited-set guard only ever lets a node be
pushed again while it is still unvisited, which happens at most once per
occurrence in the reverse index), and `find_dependents` is exactly the
visited set of that drained run. -/
theorem find_dependents_terminates (methods : List String)
    (inv : List (String × List String)) :
    (dfsLoop inv (dfsFuel methods inv) [] methods).2 = [] ∧
    find_dependents methods inv = (dfsLoop inv (dfsFuel methods inv) [] methods).1 := by
  constructor
  · apply dfsLoop_stack_empty
    · exact List.nodup_nil
    · intro x hx; cases hx
    · simp [dfsFuel]
  · rfl

/-- C8: a diff line that starts with `@@` and whose first `+c,d` group
parses to start `c` and count `d` (`d` defaulting to 1 when omitted) adds
exactly the 1-based lines `c, c+1, …, c+d-1` to the current file's
changed-line set, and leaves every other file's set unchanged. -/
theorem hunk_header_lines (st : LocState) (line : List Char) (c : Nat) (dOpt : Option Nat)
    (hat : startsWithChars ('@' :: '@' :: []) line = true)
    (hparse : parseHunkNums line = some (c, dOpt)) :
    (∀ x : Nat, x ∈ dictGetD (procDiffLine st line).file_changes st.current_file [] ↔
        (x ∈ dictGetD st.file_changes st.current_file [] ∨
          (c ≤ x ∧ x < c + dOpt.getD 1))) ∧
    ∀ k, k ≠ st.current_file →
      dictGetD (procDiffLine st line).file_changes k [] =
        dictGetD st.file_changes k [] := by
  match line with
  | [] => simp [startsWithChars] at hat
  | a :: rest =>
    match rest with
    | [] =>
      unfold startsWithChars at hat
      simp [startsWithChars] at hat
    | b :: rest2 =>
      have ha : a = '@' := by
        unfold startsWithChars at hat
        rcases Bool.and_eq_true_iff.mp hat with ⟨h1, _⟩
        exact (beq_iff_eq.mp h1).symm
      have hb : b = '@' := by
        unfold startsWithChars at hat
        rcases Bool.and_eq_true_iff.mp hat with ⟨_, h2⟩
        unfold startsWithChars at h2
        rcases Bool.and_eq_true_iff.mp h2 with ⟨h3, _⟩
        exact (beq_iff_eq.mp h3).symm
      subst ha
      subst hb
      have hplus : startsWithChars ('+' :: '+' :: '+' :: ' ' :: 'b' :: '/' :: [])
          ('@' :: '@' :: rest2) = false := rfl
      unfold procDiffLine
      rw [if_neg (by simp [hplus]), if_pos hat, hparse]
      constructor
      · intro x
        show x ∈ dictGetD ((List.range' c (dOpt.getD 1)).foldl
            (fun fc l => addChangedLine fc st.current_file l) st.file_changes)
            st.current_file [] ↔ _
        rw [mem_foldl_addChangedLine]
        simp only [List.mem_range'_1]
        tauto
      · intro k hk
        show dictGetD ((List.range' c (dOpt.getD 1)).foldl
            (fun fc l => addChangedLine fc st.current_file l) st.file_changes) k [] = _
        exact dictGetD_foldl_addChangedLine_ne _ _ _ _ hk

/-- Witness for C8 at a concrete input: the header `@@ -1,2 +5,3 @@` marks
line 6 (inside `5..7`) as changed for the current file. -/
theorem hunk_header_lines_witness :
    6 ∈ dictGetD (procDiffLine ⟨[], some ('f' :: [])⟩ ("@@ -1,2 +5,3 @@".data)).file_changes
      (some ('f' :: [])) [] := by
  have h := hunk_header_lines ⟨[], some ('f' :: [])⟩ ("@@ -1,2 +5,3 @@".data) 5 (some 3)
    (by decide) (by decide)
  exact (h.1 6).mpr (Or.inr (by decide))

/-- C9: when several parsed declarations share a simple name, the graph maps
that name to the callee list of the last-processed one (each assignment
`graph[caller] = list(callees)` overwrites), not to the union: concretely,
two `m` declarations invoking `x` and `y` leave only `y` under `m`. -/
theorem duplicate_name_last_wins (decls1 decls2 : List Decl) (d : Decl)
    (h : ∀ d' ∈ decls2, d'.name ≠ d.name) :
    dictGetD (build_dependency_graph (decls1 ++ d :: decls2)) d.name [] = calleeList d := by
  unfold build_dependency_graph
  rw [List.foldl_append, List.foldl_cons,
    dictGetD_foldl_addDecl_of_notname decls2 _ d.name h]
  unfold addDecl
  rw [dictGetD_dictUpd, if_pos rfl]

/-- Witness for C9 at a concrete input: with two declarations named `m`, the
graph holds only the last one's callees (`y`, not the union `x, y`). -/
theorem duplicate_name_last_wins_witness :
    dictGetD (build_dependency_graph [⟨"m", ["x"]⟩, ⟨"m", ["y"]⟩]) "m" [] = ["y"] := by
  have h := duplicate_name_last_wins [⟨"m", ["x"]⟩] [] ⟨"m", ["y"]⟩
    (by intro d' hd'; cases hd')
  simpa using h

/-- C10: every token `split_camel_case` produces is a non-empty string of
lowercase ASCII letters, and a name containing no ASCII letters yields no
tokens at all. -/
theorem tokens_lowercase_letters (name : String) :
    (∀ t ∈ split_camel_case name, t ≠ "" ∧ ∀ c ∈ t.data, isLo c = true) ∧
    ((∀ c ∈ name.data, isUp c = false ∧ isLo c = false) → split_camel_case name = []) := by
  constructor
  · intro t ht
    unfold split_camel_case at ht
    rw [List.mem_map] at ht
    obtain ⟨tok, htok, rfl⟩ := ht
    obtain ⟨hne, hall⟩ := scanTokensF_letters _ _ tok htok
    constructor
    · intro hcontra
      apply hne
      have hdata := congrArg String.data hcontra
      exact List.map_eq_nil_iff.mp hdata
    · intro c hc
      obtain ⟨c0, hc0, rfl⟩ := List.mem_map.mp hc
      exact isLo_toLower_of_alpha c0 (hall c0 hc0)
  · intro hnol
    unfold split_camel_case
    rw [scanTokensF_nil_of_notAlpha _ _ hnol]
    rfl

/-- Witness for C10 at concrete inputs: a letterless name has no tokens, and
the token `get` of `getX9` is non-empty. -/
theorem tokens_lowercase_letters_witness :
    split_camel_case "1_23" = [] ∧ ("get" : String) ≠ "" :=
  ⟨(tokens_lowercase_letters "1_23").2 (by decide),
   ((tokens_lowercase_letters "getX9").1 "get" (by decide)).1⟩

end DependencyAnalyzer
